import Mathlib

set_option maxRecDepth 4000

/-!
Shallow embedding of the gossip / cluster-info subsystem
(`src/cluster_info.rs`) and proofs about its specification.

Machine integers (`usize`, `u64`) are modelled as `Nat`; the only
subtractions the embedded code performs are on quantities the source
keeps non-negative, so `Nat` truncated subtraction agrees with the Rust
semantics wherever the code runs without panicking.  Fallible or
possibly non-terminating code returns `Option`/`Except`.
-/

namespace ClusterInfo

/-- The locality record returned by `localize`; field defaults mirror
`#[derive(Default)]` on the Rust struct. -/
structure Locality where
  neighbor_bounds : Nat × Nat := (0, 0)
  layer_ix : Nat := 0
  layer_bounds : Nat × Nat := (0, 0)
  child_layer_bounds : Option (Nat × Nat) := none
  child_layer_peers : List Nat := []
deriving Repr, DecidableEq, Inhabited

/-- The body of the `while remaining_nodes > 0` loop of
`describe_data_plane`.  The Rust loop need not terminate: when
`layer_capacity == 0` the update `remaining_nodes -= layer_capacity`
makes no progress.  The embedding therefore carries explicit fuel and
returns `none` exactly when the loop runs beyond the fuel; with capacity
at least 1 the loop takes at most `remaining` iterations, so the caller
passes `nodes` as fuel, which is always sufficient for terminating runs.
The Rust code keeps the invariant `layer_capacity == hood_size *
num_neighborhoods` (initially, and it re-establishes it on every `grow`
update), so the embedding recomputes the capacity from
`num_neighborhoods` each turn. -/
def describeLoop (hood_size : Nat) (grow : Bool) :
    Nat → Nat → Nat → Nat → List Nat → Option (Nat × List Nat)
  | _fuel, 0, num_layers, _nn, layer_indices => some (num_layers, layer_indices)
  | 0, _ + 1, _, _, _ => none
  | fuel + 1, remaining + 1, num_layers, nn, layer_indices =>
    let layer_capacity := hood_size * nn
    let last := layer_indices.getLast?.getD 0
    if remaining + 1 > layer_capacity then
      describeLoop hood_size grow fuel (remaining + 1 - layer_capacity)
        (num_layers + 1) (if grow then nn * nn else nn)
        (layer_indices ++ [layer_capacity + last])
    else
      some (num_layers, layer_indices ++ [layer_capacity + last])

/-- `ClusterInfo::describe_data_plane`.  Returns `none` when the Rust
loop does not terminate. -/
def describe_data_plane (nodes fanout hood_size : Nat) (grow : Bool) :
    Option (Nat × List Nat) :=
  if nodes = 0 then some (0, [])
  else if nodes ≤ fanout then some (1, [0])
  else
    describeLoop hood_size grow nodes (nodes - fanout) 2 (fanout / 2) [0, fanout]

/-- `ClusterInfo::lower_layer_peers`: the Rust iterator
`(start..end).step_by(hood_size)` yields `ceil((end - start) / hood_size)`
elements `start, start + hood_size, ...`, each shifted here by
`index % hood_size`.  (`step_by` panics when `hood_size == 0`; there the
embedding yields `[]`; every caller in the source passes a positive
`hood_size`.) -/
def lower_layer_peers (index start e hood_size : Nat) : List Nat :=
  (List.range' start ((e - start + hood_size - 1) / hood_size) hood_size).map
    (fun x => x + index % hood_size)

/-- `ClusterInfo::localize_item`.  The local `e` is the Rust local named
`end` (a Lean keyword).  List indexing is via `getD _ 0`: every access
the Rust code performs is in bounds when the caller supplies
`curr_index < layer_indices.length`, as `localize` does. -/
def localize_item (layer_indices : List Nat) (hood_size select_index curr_index : Nat) :
    Option Locality :=
  let e := layer_indices.length - 1
  let next := min e (curr_index + 1)
  let value := layer_indices.getD curr_index 0
  if select_index ≥ value ∧ select_index < layer_indices.getD next 0 then
    if curr_index = 0 then
      some { layer_ix := 0
             layer_bounds := (0, hood_size)
             neighbor_bounds := (0, hood_size)
             child_layer_bounds :=
               if next = e then none
               else some (layer_indices.getD next 0, layer_indices.getD (next + 1) 0)
             child_layer_peers :=
               if next = e then []
               else lower_layer_peers select_index (layer_indices.getD next 0)
                 (layer_indices.getD (next + 1) 0) hood_size }
    else if curr_index = e then
      some { layer_ix := e
             layer_bounds := (e - hood_size, e)
             neighbor_bounds := (e - hood_size, e)
             child_layer_bounds := none
             child_layer_peers := [] }
    else
      let hood_ix := (select_index - value) / hood_size
      some { layer_ix := curr_index
             layer_bounds := (value, layer_indices.getD next 0)
             neighbor_bounds :=
               (hood_ix * hood_size + value, (hood_ix + 1) * hood_size + value)
             child_layer_bounds :=
               if next = e then none
               else some (layer_indices.getD next 0, layer_indices.getD (next + 1) 0)
             child_layer_peers :=
               if next = e then []
               else lower_layer_peers select_index (layer_indices.getD next 0)
                 (layer_indices.getD (next + 1) 0) hood_size }
  else
    none

/-- `ClusterInfo::localize`: the first localizable `curr_index` wins,
else the default `Locality`. -/
def localize (layer_indices : List Nat) (hood_size select_index : Nat) : Locality :=
  ((List.range layer_indices.length).findSome?
      (fun i => localize_item layer_indices hood_size select_index i)).getD default

/-- A half-open interval `[p.1, p.2)`, the reading of a bounds pair. -/
def inRange (p : Nat × Nat) (j : Nat) : Prop := p.1 ≤ j ∧ j < p.2

/-- Node index `j` is reached from select index `i`: it lies in `i`'s
neighborhood bounds or among `i`'s child-layer peers. -/
def coveredBy (layer_indices : List Nat) (hood_size i j : Nat) : Prop :=
  inRange (localize layer_indices hood_size i).neighbor_bounds j ∨
    j ∈ (localize layer_indices hood_size i).child_layer_peers

/-- Membership of `j` in the union, over all select indices `i` below
`layer_indices.last`, of neighborhood ranges and child-layer peers. -/
def coverUnion (layer_indices : List Nat) (hood_size j : Nat) : Prop :=
  ∃ i, i < layer_indices.getLast?.getD 0 ∧ coveredBy layer_indices hood_size i j

/-- The layer partition `describe_data_plane 25000 10 10 false` computes:
`[0, 10]` then 500 further boundaries in steps of `hood_size *
num_neighborhoods = 50`.  The link to the code is proved below. -/
def li25 : List Nat := [0, 10] ++ List.range' 60 500 50

/-- A 32-byte ed25519 public key, modelled as its byte list. -/
structure Pubkey where
  bytes : List Nat
deriving DecidableEq, Repr, Inhabited

/-- A 64-byte ed25519 signature, modelled as its byte list. -/
structure Signature where
  bytes : List Nat
deriving DecidableEq, Repr, Inhabited

/-- `PruneData`, field for field and in declaration order. -/
structure PruneData where
  pubkey : Pubkey
  prunes : List Pubkey
  signature : Signature
  destination : Pubkey
  wallclock : Nat
deriving DecidableEq, Repr, Inhabited

/-- Modelled from the spec: the serialization collaborator (bincode)
encodes a `u64` as 8 little-endian bytes. -/
def serU64 (n : Nat) : List Nat := (List.range 8).map (fun i => n / 256 ^ i % 256)

/-- A `Pubkey` (a fixed 32-byte array) serializes as its raw bytes. -/
def serPubkey (p : Pubkey) : List Nat := p.bytes

/-- A `Signature` (a fixed 64-byte array) serializes as its raw bytes. -/
def serSignature (s : Signature) : List Nat := s.bytes

/-- Modelled from the spec: bincode encodes a `Vec` as a `u64` length
prefix followed by the elements in order. -/
def serVecPubkey (v : List Pubkey) : List Nat :=
  serU64 v.length ++ (v.map serPubkey).flatten

/-- The anonymous `SignData` struct that `impl Signable for PruneData`
builds inside `signable_data`, field for field. -/
structure SignData where
  pubkey : Pubkey
  prunes : List Pubkey
  destination : Pubkey
  wallclock : Nat
deriving DecidableEq, Repr

/-- Modelled from the spec: bincode encodes a struct as the
concatenation of its field encodings in declaration order. -/
def serSignData (d : SignData) : List Nat :=
  serPubkey d.pubkey ++ serVecPubkey d.prunes ++ serPubkey d.destination ++
    serU64 d.wallclock

/-- `<PruneData as Signable>::signable_data`: serialize the `SignData`
struct assembled from the four non-signature fields. -/
def PruneData.signable_data (d : PruneData) : List Nat :=
  serSignData { pubkey := d.pubkey, prunes := d.prunes, destination := d.destination,
                wallclock := d.wallclock }

/-- Full bincode serialization of `PruneData`, all five fields in
declaration order (the wire form of the `PruneMessage` payload). -/
def serPruneData (d : PruneData) : List Nat :=
  serPubkey d.pubkey ++ serVecPubkey d.prunes ++ serSignature d.signature ++
    serPubkey d.destination ++ serU64 d.wallclock

/-- Modelled from the spec: a socket address; this subsystem only
compares it with the unspecified sentinel and forwards it. -/
structure SockAddr where
  ip : Nat
  port : Nat
deriving DecidableEq, Repr, Inhabited

/-- Modelled from the spec: the unspecified sentinel address. -/
def unspecified_addr : SockAddr := { ip := 0, port := 0 }

/-- Modelled from the spec: `ContactInfo::is_valid_address`; an endpoint
is usable unless it is the unspecified sentinel, which callers must
treat as "do not contact on this role". -/
def is_valid_address (a : SockAddr) : Bool := a ≠ unspecified_addr

/-- Modelled from the spec: a peer's contact record (`contact_info.rs`
is outside this repository slice): node id, six socket endpoints, and a
wallclock. -/
structure ContactInfo where
  id : Pubkey
  gossip : SockAddr
  tvu : SockAddr
  tpu : SockAddr
  storage : SockAddr
  rpc : SockAddr
  rpc_pubsub : SockAddr
  wallclock : Nat
deriving DecidableEq, Repr, Inhabited

/-- `LeaderId` CRDS payload; the Rust field `from` is a Lean keyword and
is rendered `from_id`. -/
structure LeaderId where
  from_id : Pubkey
  leader_id : Pubkey
  wallclock : Nat
deriving DecidableEq, Repr, Inhabited

/-- `Vote` CRDS payload with an opaque transaction. -/
structure VoteData where
  transaction : List Nat
  wallclock : Nat
deriving DecidableEq, Repr, Inhabited

/-- The `CrdsValue` tagged union. -/
inductive CrdsValue where
  | contactInfoV : ContactInfo → CrdsValue
  | leaderIdV : LeaderId → CrdsValue
  | voteV : VoteData → CrdsValue
deriving DecidableEq, Repr, Inhabited

/-- `CrdsValue::contact_info`: the payload when the value is a contact
record. -/
def CrdsValue.contact_info : CrdsValue → Option ContactInfo
  | .contactInfoV c => some c
  | _ => none

/-- Modelled from the spec: the state a `ClusterInfo` exposes to its
peer-view methods — the CRDS table (crds.rs is outside this repository
slice; its value set is modelled as a list) and this node's own id `me`,
which each method obtains as `self.my_data().id` (equal to the gossip id
under the CRDS label scheme). -/
structure ClusterInfoState where
  me : Pubkey
  table : List CrdsValue
deriving DecidableEq, Repr, Inhabited

/-- `ClusterInfo::rpc_peers`: contact infos, minus self, with a valid
rpc endpoint. -/
def rpc_peers (ci : ClusterInfoState) : List ContactInfo :=
  ((ci.table.filterMap CrdsValue.contact_info).filter
      (fun x => decide (x.id ≠ ci.me))).filter
    (fun x => is_valid_address x.rpc)

/-- `ClusterInfo::gossip_peers`: contact infos, minus self, with a valid
gossip endpoint. -/
def gossip_peers (ci : ClusterInfoState) : List ContactInfo :=
  ((ci.table.filterMap CrdsValue.contact_info).filter
      (fun x => decide (x.id ≠ ci.me))).filter
    (fun x => is_valid_address x.gossip)

/-- `ClusterInfo::tvu_peers`: contact infos with a valid tvu endpoint,
minus self (the source applies the validity filter first here). -/
def tvu_peers (ci : ClusterInfoState) : List ContactInfo :=
  ((ci.table.filterMap CrdsValue.contact_info).filter
      (fun x => is_valid_address x.tvu)).filter
    (fun x => decide (x.id ≠ ci.me))

/-- `ClusterInfo::retransmit_peers`: contact infos, minus self, with a
valid tvu endpoint. -/
def retransmit_peers (ci : ClusterInfoState) : List ContactInfo :=
  ((ci.table.filterMap CrdsValue.contact_info).filter
      (fun x => decide (x.id ≠ ci.me))).filter
    (fun x => is_valid_address x.tvu)

/-- `ClusterInfo::repair_peers`: tvu peers, minus self again, with a
valid gossip endpoint. -/
def repair_peers (ci : ClusterInfoState) : List ContactInfo :=
  ((tvu_peers ci).filter (fun x => decide (x.id ≠ ci.me))).filter
    (fun x => is_valid_address x.gossip)

/-- `ClusterInfo::tpu_peers`: contact infos, minus self, with a valid
tpu endpoint. -/
def tpu_peers (ci : ClusterInfoState) : List ContactInfo :=
  ((ci.table.filterMap CrdsValue.contact_info).filter
      (fun x => decide (x.id ≠ ci.me))).filter
    (fun x => is_valid_address x.tpu)

/-- The error enum of `cluster_info.rs`. -/
inductive ClusterInfoError where
  | NoPeers
  | NoLeader
  | BadContactInfo
  | BadNodeInfo
  | BadGossipAddress
deriving DecidableEq, Repr

/-- `ClusterInfo::my_data`: the CRDS lookup of this node's own contact
info (the label-keyed map is modelled as the first matching entry). -/
def my_data (ci : ClusterInfoState) : ContactInfo :=
  ((ci.table.filterMap CrdsValue.contact_info).find?
      (fun x => decide (x.id = ci.me))).getD default

/-- Modelled from the spec: bincode encodes an enum variant tag as a
little-endian `u32`. -/
def serU32 (n : Nat) : List Nat := (List.range 4).map (fun i => n / 256 ^ i % 256)

/-- Modelled from the spec: a fixed encoding of a socket address (the
exact byte layout belongs to the external serialization collaborator). -/
def serSockAddr (a : SockAddr) : List Nat := serU64 a.ip ++ serU64 a.port

/-- Modelled from the spec: bincode encoding of a contact record, its
fields in declaration order. -/
def serContactInfo (c : ContactInfo) : List Nat :=
  serPubkey c.id ++ serSockAddr c.gossip ++ serSockAddr c.tvu ++ serSockAddr c.tpu ++
    serSockAddr c.storage ++ serSockAddr c.rpc ++ serSockAddr c.rpc_pubsub ++
    serU64 c.wallclock

/-- `ClusterInfo::window_index_request_bytes`: the serialized
`Protocol::RequestWindowIndex(my_data, ix)` envelope (variant tag 4). -/
def window_index_request_bytes (ci : ClusterInfoState) (ix : Nat) : List Nat :=
  serU32 4 ++ serContactInfo (my_data ci) ++ serU64 ix

/-- `ClusterInfo::window_index_request`.  The source draws
`thread_rng().gen::<usize>()` and reduces it modulo the peer count; the
embedding takes the drawn value `n` as a parameter. -/
def window_index_request (ci : ClusterInfoState) (ix n : Nat) :
    Except ClusterInfoError (SockAddr × List Nat) :=
  let valid := repair_peers ci
  if valid.isEmpty then Except.error ClusterInfoError.NoPeers
  else
    Except.ok ((valid.getD (n % valid.length) default).gossip,
      window_index_request_bytes ci ix)

/-- `ClusterInfo::create_broadcast_orders`.  Blob and node-info contents
are irrelevant here, so both are type parameters; the source draws
`x = thread_rng().gen_range(0, broadcast_table.len())`, which the
embedding takes as a parameter.  `blobs.last().unwrap()` and the
indexing `broadcast_table[br_idx]` are total at every use site the
source reaches (`blobs` non-empty on that path, `br_idx <
broadcast_table.len()`), so `getD default` agrees with the Rust
semantics. -/
def create_broadcast_orders {α β : Type} [Inhabited α] [Inhabited β]
    (contains_last_tick : Bool) (blobs : List β) (broadcast_table : List α)
    (x : Nat) : List (β × List α) :=
  if blobs.isEmpty then []
  else
    let orders := blobs.enum.map (fun p =>
      (p.2, [broadcast_table.getD ((x + p.1) % broadcast_table.length) default]))
    if contains_last_tick then
      orders ++ [(blobs.getLast?.getD default, broadcast_table)]
    else orders

/-- A concrete foreign contact record, used by witnesses below. -/
def samplePeer : ContactInfo :=
  { id := ⟨[1]⟩, gossip := ⟨2, 1⟩, tvu := ⟨2, 2⟩, tpu := ⟨2, 3⟩,
    storage := ⟨0, 0⟩, rpc := ⟨2, 4⟩, rpc_pubsub := ⟨0, 0⟩, wallclock := 0 }

/-- A concrete own contact record, used by witnesses below. -/
def sampleSelf : ContactInfo :=
  { id := ⟨[0]⟩, gossip := ⟨1, 1⟩, tvu := ⟨1, 2⟩, tpu := ⟨1, 3⟩,
    storage := ⟨0, 0⟩, rpc := ⟨1, 4⟩, rpc_pubsub := ⟨0, 0⟩, wallclock := 0 }

/-- A state whose CRDS holds only this node's own contact info. -/
def ciSelfOnly : ClusterInfoState :=
  { me := ⟨[0]⟩, table := [CrdsValue.contactInfoV sampleSelf] }

/-- A state whose CRDS holds one repair-capable foreign peer. -/
def ciOnePeer : ClusterInfoState :=
  { me := ⟨[0]⟩, table := [CrdsValue.contactInfoV samplePeer] }

end ClusterInfo

namespace ClusterInfo

/-! ### List helpers -/

theorem chain'_getD {R : Nat → Nat → Prop} {l : List Nat} (hc : List.Chain' R l)
    {i : Nat} (hi : i + 1 < l.length) : R (l.getD i 0) (l.getD (i + 1) 0) := by
  rw [List.getD_eq_getElem l 0 (by omega), List.getD_eq_getElem l 0 hi]
  have h2 := List.chain'_iff_get.mp hc i (by omega)
  simpa using h2

theorem getD_rel_of_chain' {R : Nat → Nat → Prop} [IsTrans Nat R] {l : List Nat}
    (hc : List.Chain' R l) {i j : Nat} (hij : i < j) (hj : j < l.length) :
    R (l.getD i 0) (l.getD j 0) := by
  have hp : List.Pairwise R l := List.chain'_iff_pairwise.mp hc
  have h2 := List.pairwise_iff_get.mp hp ⟨i, by omega⟩ ⟨j, hj⟩ (by simpa using hij)
  rw [List.getD_eq_getElem l 0 (by omega), List.getD_eq_getElem l 0 hj]
  simpa using h2

theorem getD_le_of_chain'_lt {l : List Nat} (hc : List.Chain' (· < ·) l)
    {i j : Nat} (hij : i ≤ j) (hj : j < l.length) : l.getD i 0 ≤ l.getD j 0 := by
  rcases Nat.eq_or_lt_of_le hij with heq | hlt
  · exact heq ▸ Nat.le_refl _
  · exact Nat.le_of_lt (getD_rel_of_chain' hc hlt hj)

theorem getD_le_of_chain'_le {l : List Nat} (hc : List.Chain' (· ≤ ·) l)
    {i j : Nat} (hij : i ≤ j) (hj : j < l.length) : l.getD i 0 ≤ l.getD j 0 := by
  rcases Nat.eq_or_lt_of_le hij with heq | hlt
  · exact heq ▸ Nat.le_refl _
  · exact getD_rel_of_chain' hc hlt hj

theorem getLast?_getD_eq_getD {l : List Nat} :
    l.getLast?.getD 0 = l.getD (l.length - 1) 0 := by
  rw [List.getLast?_eq_getElem?, List.getD_eq_getElem?_getD]

theorem findSome?_range'_eq {β : Type} {f : Nat → Option β} {s : Nat} {b : β}
    (hb : f s = some b) :
    ∀ n a, a ≤ s → s < a + n → (∀ i, a ≤ i → i < s → f i = none) →
      (List.range' a n).findSome? f = some b := by
  intro n
  induction n with
  | zero => intro a h1 h2 _; omega
  | succ m ih =>
    intro a h1 h2 h3
    rw [List.range'_succ, List.findSome?_cons]
    rcases Nat.eq_or_lt_of_le h1 with heq | hlt
    · subst heq
      rw [hb]
    · rw [h3 a (Nat.le_refl a) hlt]
      exact ih (a + 1) hlt (by omega) (fun i hi1 hi2 => h3 i (by omega) hi2)

theorem exists_segment {j : Nat} : ∀ {l : List Nat}, List.Chain' (· < ·) l →
    2 ≤ l.length → l.getD 0 0 ≤ j → j < l.getD (l.length - 1) 0 →
    ∃ s, s + 1 < l.length ∧ l.getD s 0 ≤ j ∧ j < l.getD (s + 1) 0 := by
  intro l
  induction l with
  | nil => intro _ h2 _ _; simp at h2
  | cons a t ih =>
    intro hch hlen hlo hhi
    cases t with
    | nil => simp at hlen
    | cons b t2 =>
      by_cases hj : j < b
      · exact ⟨0, by simp, hlo, hj⟩
      · push_neg at hj
        cases t2 with
        | nil => simp [List.getD] at hhi; omega
        | cons c t3 =>
          have hch2 : List.Chain' (· < ·) (b :: c :: t3) := (List.chain'_cons.mp hch).2
          have hhi2 : j < (b :: c :: t3).getD ((b :: c :: t3).length - 1) 0 := by
            have hlen2 : (a :: b :: c :: t3).length - 1 = (b :: c :: t3).length - 1 + 1 := by
              simp
            rw [hlen2, List.getD_cons_succ] at hhi
            exact hhi
          obtain ⟨s, hs1, hs2, hs3⟩ := ih hch2 (by simp) hj hhi2
          exact ⟨s + 1, by simp at hs1 ⊢; omega, by rwa [List.getD_cons_succ],
            by rwa [List.getD_cons_succ]⟩

/-! ### Scanning lemmas for `localize` -/

theorem localize_item_none_of_lt {li : List Nat} {h idx s i : Nat}
    (hch : List.Chain' (· < ·) li) (hs : s + 1 < li.length) (hi : i < s)
    (h1 : li.getD s 0 ≤ idx) : localize_item li h idx i = none := by
  have hmin : min (li.length - 1) (i + 1) = i + 1 := Nat.min_eq_right (by omega)
  have hle : li.getD (i + 1) 0 ≤ li.getD s 0 :=
    getD_le_of_chain'_lt hch (by omega) (by omega)
  simp only [localize_item, hmin]
  rw [if_neg]
  intro hcond
  omega

theorem localize_item_none_of_no_segment {li : List Nat} {h idx i : Nat}
    (hilen : i < li.length)
    (hor : i + 1 < li.length → ¬(li.getD i 0 ≤ idx ∧ idx < li.getD (i + 1) 0)) :
    localize_item li h idx i = none := by
  by_cases hi : i + 1 < li.length
  · have hmin : min (li.length - 1) (i + 1) = i + 1 := Nat.min_eq_right (by omega)
    simp only [localize_item, hmin]
    rw [if_neg]
    intro hcond
    exact hor hi ⟨hcond.1, hcond.2⟩
  · have hieq : i = li.length - 1 := by omega
    have hmin : min (li.length - 1) (i + 1) = li.length - 1 := Nat.min_eq_left (by omega)
    simp only [localize_item, hmin]
    rw [if_neg]
    intro hcond
    rw [← hieq] at hcond
    omega

theorem localize_eq_default_of_no_segment {li : List Nat} {h idx : Nat}
    (hno : ∀ i, i + 1 < li.length → ¬(li.getD i 0 ≤ idx ∧ idx < li.getD (i + 1) 0)) :
    localize li h idx = default := by
  unfold localize
  have hall : ∀ i ∈ List.range li.length,
      localize_item li h idx i = none := by
    intro i hmem
    exact localize_item_none_of_no_segment (List.mem_range.mp hmem) (fun hlt => hno i hlt)
  rw [List.findSome?_eq_none_iff.mpr hall]
  rfl

theorem localize_eq_of_item {li : List Nat} {h idx s : Nat} {loc : Locality}
    (hch : List.Chain' (· < ·) li) (hs : s + 1 < li.length)
    (h1 : li.getD s 0 ≤ idx)
    (hitem : localize_item li h idx s = some loc) :
    localize li h idx = loc := by
  unfold localize
  rw [List.range_eq_range']
  rw [findSome?_range'_eq hitem li.length 0 (Nat.zero_le s) (by omega)
    (fun i _ hilt => localize_item_none_of_lt hch hs hilt h1)]
  rfl

theorem localize_item_eq_zero {li : List Nat} {h idx : Nat}
    (hlen : 2 ≤ li.length) (h1 : li.getD 0 0 ≤ idx) (h2 : idx < li.getD 1 0) :
    localize_item li h idx 0 = some
      { layer_ix := 0
        layer_bounds := (0, h)
        neighbor_bounds := (0, h)
        child_layer_bounds :=
          if 1 = li.length - 1 then none else some (li.getD 1 0, li.getD 2 0)
        child_layer_peers :=
          if 1 = li.length - 1 then []
          else lower_layer_peers idx (li.getD 1 0) (li.getD 2 0) h } := by
  have hmin : min (li.length - 1) (0 + 1) = 1 := by
    rw [Nat.zero_add]
    exact Nat.min_eq_right (by omega)
  simp only [localize_item, hmin]
  rw [if_pos ⟨h1, h2⟩]
  rfl

theorem localize_item_eq_interior {li : List Nat} {h idx s : Nat}
    (hs0 : 0 < s) (hs : s + 1 < li.length)
    (h1 : li.getD s 0 ≤ idx) (h2 : idx < li.getD (s + 1) 0) :
    localize_item li h idx s = some
      { layer_ix := s
        layer_bounds := (li.getD s 0, li.getD (s + 1) 0)
        neighbor_bounds :=
          ((idx - li.getD s 0) / h * h + li.getD s 0,
           ((idx - li.getD s 0) / h + 1) * h + li.getD s 0)
        child_layer_bounds :=
          if s + 1 = li.length - 1 then none
          else some (li.getD (s + 1) 0, li.getD (s + 2) 0)
        child_layer_peers :=
          if s + 1 = li.length - 1 then []
          else lower_layer_peers idx (li.getD (s + 1) 0) (li.getD (s + 2) 0) h } := by
  have hmin : min (li.length - 1) (s + 1) = s + 1 := Nat.min_eq_right (by omega)
  simp only [localize_item, hmin]
  rw [if_pos ⟨h1, h2⟩, if_neg (show ¬s = 0 by omega),
    if_neg (show ¬s = li.length - 1 by omega)]

/-! ### Arithmetic facts about `lower_layer_peers` -/

theorem mem_lower_layer_peers {idx a b h p : Nat} :
    p ∈ lower_layer_peers idx a b h ↔
      ∃ k, k < (b - a + h - 1) / h ∧ p = a + h * k + idx % h := by
  unfold lower_layer_peers
  simp only [List.mem_map, List.mem_range']
  constructor
  · rintro ⟨x, ⟨k, hk, rfl⟩, rfl⟩
    exact ⟨k, hk, rfl⟩
  · rintro ⟨k, hk, rfl⟩
    exact ⟨a + h * k, ⟨k, hk, rfl⟩, rfl⟩

theorem lower_layer_peers_lt {idx a b h p : Nat} (hpos : 0 < h)
    (hgap : (b - a) % h = 0) (hab : a < b) (hp : p ∈ lower_layer_peers idx a b h) :
    p < b := by
  obtain ⟨k, hk, rfl⟩ := mem_lower_layer_peers.mp hp
  have hm : h * ((b - a) / h) = b - a := Nat.mul_div_cancel' (Nat.dvd_of_mod_eq_zero hgap)
  have hcnt : (b - a + h - 1) / h = (b - a) / h := by
    have he : b - a + h - 1 = (h - 1) + h * ((b - a) / h) := by omega
    rw [he, Nat.add_mul_div_left _ _ hpos, Nat.div_eq_of_lt (by omega), Nat.zero_add]
  rw [hcnt] at hk
  have h2 : h * k + h ≤ h * ((b - a) / h) := by
    have h3 : h * (k + 1) ≤ h * ((b - a) / h) := Nat.mul_le_mul_left h hk
    calc h * k + h = h * (k + 1) := by ring
    _ ≤ h * ((b - a) / h) := h3
  have h4 : idx % h < h := Nat.mod_lt idx hpos
  omega

/-! ### Invariants of the `describe_data_plane` loop -/

theorem describeLoop_none_of_cap_zero {h : Nat} {g : Bool} :
    ∀ fuel r nl nn li, h * nn = 0 → 0 < r →
      describeLoop h g fuel r nl nn li = none := by
  intro fuel
  induction fuel with
  | zero =>
    intro r nl nn li hcap hr
    match r, hr with
    | r' + 1, _ => rfl
  | succ fl ih =>
    intro r nl nn li hcap hr
    match r, hr with
    | r' + 1, _ =>
      simp only [describeLoop]
      rw [if_pos (by omega)]
      apply ih
      · rcases Nat.mul_eq_zero.mp hcap with h0 | n0
        · simp [h0]
        · rcases g with _ | _ <;> simp [n0]
      · omega

theorem describeLoop_post {h : Nat} {g : Bool} :
    ∀ fuel r nl nn li, 0 < h * nn → 0 < r → r ≤ fuel → nl = li.length →
      ∃ nl2 li2, describeLoop h g fuel r nl nn li = some (nl2, li2) ∧
        nl2 = li2.length - 1 ∧ li.getLast?.getD 0 + r ≤ li2.getLast?.getD 0 := by
  intro fuel
  induction fuel with
  | zero => intro r nl nn li hcap hr hrf _; omega
  | succ fl ih =>
    intro r nl nn li hcap hr hrf hnl
    have hh : 0 < h := by
      rcases Nat.eq_zero_or_pos h with h0 | h1
      · rw [h0] at hcap; simp at hcap
      · exact h1
    have hnn : 0 < nn := by
      rcases Nat.eq_zero_or_pos nn with h0 | h1
      · rw [h0] at hcap; simp at hcap
      · exact h1
    match r, hr with
    | r' + 1, _ =>
      simp only [describeLoop]
      by_cases hgt : r' + 1 > h * nn
      · rw [if_pos hgt]
        have hcap2 : 0 < h * (if g then nn * nn else nn) := by
          rcases g with _ | _
          · simpa using hcap
          · simpa using Nat.mul_pos hh (Nat.mul_pos hnn hnn)
        obtain ⟨nl2, li2, heq, hp1, hp2⟩ :=
          ih (r' + 1 - h * nn) (nl + 1) (if g then nn * nn else nn)
            (li ++ [h * nn + li.getLast?.getD 0]) hcap2 (by omega) (by omega)
            (by simp [hnl])
        refine ⟨nl2, li2, heq, hp1, ?_⟩
        have hlast : (li ++ [h * nn + li.getLast?.getD 0]).getLast?.getD 0 =
            h * nn + li.getLast?.getD 0 := by
          rw [List.getLast?_concat]
          rfl
        rw [hlast] at hp2
        omega
      · rw [if_neg hgt]
        refine ⟨nl, li ++ [h * nn + li.getLast?.getD 0], rfl, by simp [hnl], ?_⟩
        have hlast : (li ++ [h * nn + li.getLast?.getD 0]).getLast?.getD 0 =
            h * nn + li.getLast?.getD 0 := by
          rw [List.getLast?_concat]
          rfl
        rw [hlast]
        omega

theorem describeLoop_chain' {h : Nat} {g : Bool} :
    ∀ fuel r nl nn li nl2 li2, 0 < h * nn → List.Chain' (· < ·) li →
      describeLoop h g fuel r nl nn li = some (nl2, li2) →
      List.Chain' (· < ·) li2 := by
  have happ : ∀ (li : List Nat) (c : Nat), 0 < c → List.Chain' (· < ·) li →
      List.Chain' (· < ·) (li ++ [c + li.getLast?.getD 0]) := by
    intro li c hc hch
    rw [List.chain'_append]
    refine ⟨hch, List.chain'_singleton _, ?_⟩
    intro x hx y hy
    simp only [List.head?_cons, Option.mem_def, Option.some.injEq] at hy
    have hxv : li.getLast?.getD 0 = x := by rw [hx]; rfl
    omega
  intro fuel
  induction fuel with
  | zero =>
    intro r nl nn li nl2 li2 hcap hch heq
    match r with
    | 0 =>
      simp only [describeLoop, Option.some.injEq, Prod.mk.injEq] at heq
      rw [← heq.2]
      exact hch
    | r' + 1 =>
      simp only [describeLoop] at heq
      exact Option.noConfusion heq
  | succ fl ih =>
    intro r nl nn li nl2 li2 hcap hch heq
    have hh : 0 < h := by
      rcases Nat.eq_zero_or_pos h with h0 | h1
      · rw [h0] at hcap; simp at hcap
      · exact h1
    have hnn : 0 < nn := by
      rcases Nat.eq_zero_or_pos nn with h0 | h1
      · rw [h0] at hcap; simp at hcap
      · exact h1
    match r with
    | 0 =>
      simp only [describeLoop, Option.some.injEq, Prod.mk.injEq] at heq
      rw [← heq.2]
      exact hch
    | r' + 1 =>
      simp only [describeLoop] at heq
      by_cases hgt : r' + 1 > h * nn
      · rw [if_pos hgt] at heq
        have hcap2 : 0 < h * (if g then nn * nn else nn) := by
          rcases g with _ | _
          · simpa using hcap
          · simpa using Nat.mul_pos hh (Nat.mul_pos hnn hnn)
        exact ih _ _ _ _ _ _ hcap2 (happ li (h * nn) hcap hch) heq
      · rw [if_neg hgt] at heq
        simp only [Option.some.injEq, Prod.mk.injEq] at heq
        rw [← heq.2]
        exact happ li (h * nn) hcap hch

theorem describeLoop_closed {h nn : Nat} (hcap : 0 < h * nn) :
    ∀ k fuel r nl li, 0 < r → r ≤ h * nn → k + 1 ≤ fuel →
      describeLoop h false fuel (h * nn * k + r) nl nn li =
        some (nl + k,
          li ++ List.range' (h * nn + li.getLast?.getD 0) (k + 1) (h * nn)) := by
  intro k
  induction k with
  | zero =>
    intro fuel r nl li hr hrc hf
    match fuel, hf with
    | fl + 1, _ =>
      match r, hr with
      | r' + 1, _ =>
        simp only [Nat.mul_zero, Nat.zero_add]
        simp only [describeLoop]
        rw [if_neg (by omega)]
        rw [List.range'_succ]
        rfl
  | succ m ih =>
    intro fuel r nl li hr hrc hf
    match fuel, hf with
    | fl + 1, _ =>
      have hsplit : h * nn * (m + 1) + r = (h * nn * m + r + h * nn - 1) + 1 := by
        have hms : h * nn * (m + 1) = h * nn * m + h * nn := by ring
        omega
      rw [hsplit]
      simp only [describeLoop]
      rw [if_pos (by
        have hms : h * nn * (m + 1) = h * nn * m + h * nn := by ring
        omega)]
      have harg : h * nn * m + r + h * nn - 1 + 1 - h * nn = h * nn * m + r := by
        omega
      rw [harg]
      have hnn2 : (if false then nn * nn else nn) = nn := rfl
      rw [hnn2]
      rw [show List.range' (h * nn + li.getLast?.getD 0) (m + 1 + 1) (h * nn) =
          (h * nn + li.getLast?.getD 0) ::
            List.range' ((h * nn + li.getLast?.getD 0) + h * nn) (m + 1) (h * nn)
        from List.range'_succ _ _ _]
      rw [ih fl r (nl + 1) (li ++ [h * nn + li.getLast?.getD 0]) hr hrc (by omega)]
      have hlast : (li ++ [h * nn + li.getLast?.getD 0]).getLast?.getD 0 =
          h * nn + li.getLast?.getD 0 := by
        rw [List.getLast?_concat]
        rfl
      rw [hlast]
      have hstep : h * nn + (h * nn + li.getLast?.getD 0) =
          (h * nn + li.getLast?.getD 0) + h * nn := by ring
      rw [hstep]
      rw [← List.append_cons]
      congr 2
      omega

theorem describe_data_plane_chain' {n f h : Nat} {g : Bool} {nl : Nat} {li : List Nat}
    (hd : describe_data_plane n f h g = some (nl, li)) : List.Chain' (· < ·) li := by
  unfold describe_data_plane at hd
  by_cases h0 : n = 0
  · rw [if_pos h0] at hd
    simp only [Option.some.injEq, Prod.mk.injEq] at hd
    rw [← hd.2]
    exact List.chain'_nil
  · rw [if_neg h0] at hd
    by_cases h1 : n ≤ f
    · rw [if_pos h1] at hd
      simp only [Option.some.injEq, Prod.mk.injEq] at hd
      rw [← hd.2]
      exact List.chain'_singleton 0
    · rw [if_neg h1] at hd
      by_cases hcap : 0 < h * (f / 2)
      · have hf2 : f / 2 ≠ 0 := by
          intro hz
          rw [hz, Nat.mul_zero] at hcap
          exact absurd hcap (lt_irrefl 0)
        have hf : 0 < f := by omega
        exact describeLoop_chain' _ _ _ _ _ _ _ hcap (by simp [List.chain'_cons, hf]) hd
      · rw [describeLoop_none_of_cap_zero _ _ _ _ _ (by omega) (by omega)] at hd
        exact Option.noConfusion hd

theorem chain'_range'_of {R : Nat → Nat → Prop} {step : Nat}
    (hR : ∀ x, R x (x + step)) : ∀ n a, List.Chain' R (List.range' a n step) := by
  intro n
  induction n with
  | zero => intro a; simp
  | succ m ih =>
    intro a
    rw [List.range'_succ]
    rcases m with _ | m2
    · simp
    · rw [List.range'_succ]
      refine List.chain'_cons.mpr ⟨hR a, ?_⟩
      rw [← List.range'_succ]
      exact ih (a + step)

/-! ### Neighborhood self-coverage and upper bounds -/

theorem localize_self_cover {li : List Nat} {h j : Nat}
    (hch : List.Chain' (· < ·) li) (hlen : 2 ≤ li.length)
    (hh0 : li.getD 0 0 = 0) (hh1 : li.getD 1 0 = h) (hpos : 0 < h)
    (hj : j < li.getD (li.length - 1) 0) :
    inRange (localize li h j).neighbor_bounds j := by
  obtain ⟨s, hs, hs1, hs2⟩ := exists_segment hch hlen (by omega) hj
  by_cases hs0 : s = 0
  · subst hs0
    rw [localize_eq_of_item hch hs hs1 (localize_item_eq_zero hlen hs1 hs2)]
    exact ⟨Nat.zero_le j, by rw [← hh1]; exact hs2⟩
  · have hs0p : 0 < s := Nat.pos_of_ne_zero hs0
    rw [localize_eq_of_item hch hs hs1 (localize_item_eq_interior hs0p hs hs1 hs2)]
    have hdm := Nat.div_add_mod (j - li.getD s 0) h
    have hmlt := Nat.mod_lt (j - li.getD s 0) hpos
    have hc : (j - li.getD s 0) / h * h = h * ((j - li.getD s 0) / h) :=
      Nat.mul_comm _ _
    have hd : ((j - li.getD s 0) / h + 1) * h = (j - li.getD s 0) / h * h + h := by
      ring
    show (j - li.getD s 0) / h * h + li.getD s 0 ≤ j ∧
      j < ((j - li.getD s 0) / h + 1) * h + li.getD s 0
    exact ⟨by omega, by omega⟩

theorem localize_upper {li : List Nat} {h : Nat}
    (hch : List.Chain' (· < ·) li)
    (hgap : List.Chain' (fun x y => (y - x) % h = 0) li)
    (hh1 : li.getD 1 0 = h) (hpos : 0 < h) (hlen : 2 ≤ li.length) (i : Nat) :
    (localize li h i).neighbor_bounds.2 ≤ li.getD (li.length - 1) 0 ∧
      ∀ p ∈ (localize li h i).child_layer_peers, p < li.getD (li.length - 1) 0 := by
  have hlast_ge : ∀ t, t < li.length → li.getD t 0 ≤ li.getD (li.length - 1) 0 :=
    fun t ht => getD_le_of_chain'_lt hch (by omega) (by omega)
  by_cases hseg : ∃ s, s + 1 < li.length ∧ li.getD s 0 ≤ i ∧ i < li.getD (s + 1) 0
  · obtain ⟨s, hs, hs1, hs2⟩ := hseg
    by_cases hs0 : s = 0
    · subst hs0
      rw [localize_eq_of_item hch hs hs1 (localize_item_eq_zero hlen hs1 hs2)]
      refine ⟨by rw [← hh1]; exact hlast_ge 1 (by omega), ?_⟩
      intro p hp
      by_cases he : 1 = li.length - 1
      · simp only [if_pos he] at hp
        exact absurd hp (List.not_mem_nil p)
      · simp only [if_neg he] at hp
        have hlen3 : 2 < li.length := by omega
        have hgap2 : (li.getD 2 0 - li.getD 1 0) % h = 0 := chain'_getD hgap (by omega)
        have hlt2 : li.getD 1 0 < li.getD 2 0 := chain'_getD hch (by omega)
        have hp2 := lower_layer_peers_lt hpos hgap2 hlt2 hp
        exact Nat.lt_of_lt_of_le hp2 (hlast_ge 2 hlen3)
    · have hs0p : 0 < s := Nat.pos_of_ne_zero hs0
      rw [localize_eq_of_item hch hs hs1 (localize_item_eq_interior hs0p hs hs1 hs2)]
      constructor
      · show ((i - li.getD s 0) / h + 1) * h + li.getD s 0 ≤ li.getD (li.length - 1) 0
        have hvlt : li.getD s 0 < li.getD (s + 1) 0 := chain'_getD hch hs
        have hgapm : (li.getD (s + 1) 0 - li.getD s 0) % h = 0 := chain'_getD hgap hs
        have hm : h * ((li.getD (s + 1) 0 - li.getD s 0) / h) =
            li.getD (s + 1) 0 - li.getD s 0 :=
          Nat.mul_div_cancel' (Nat.dvd_of_mod_eq_zero hgapm)
        have hql : (i - li.getD s 0) / h * h ≤ i - li.getD s 0 := Nat.div_mul_le_self _ _
        have hqlt : (i - li.getD s 0) / h < (li.getD (s + 1) 0 - li.getD s 0) / h := by
          by_contra hge
          push_neg at hge
          have h2 : h * ((li.getD (s + 1) 0 - li.getD s 0) / h) ≤
              h * ((i - li.getD s 0) / h) := Nat.mul_le_mul_left h hge
          have h3 : h * ((i - li.getD s 0) / h) = (i - li.getD s 0) / h * h :=
            Nat.mul_comm _ _
          omega
        have hq1 : ((i - li.getD s 0) / h + 1) * h ≤
            (li.getD (s + 1) 0 - li.getD s 0) / h * h := by
          exact Nat.mul_le_mul_right h hqlt
        have hc : (li.getD (s + 1) 0 - li.getD s 0) / h * h =
            h * ((li.getD (s + 1) 0 - li.getD s 0) / h) := Nat.mul_comm _ _
        have hle1 : li.getD (s + 1) 0 ≤ li.getD (li.length - 1) 0 :=
          hlast_ge (s + 1) (by omega)
        omega
      · intro p hp
        by_cases he : s + 1 = li.length - 1
        · simp only [if_pos he] at hp
          exact absurd hp (List.not_mem_nil p)
        · simp only [if_neg he] at hp
          have hlen3 : s + 2 < li.length := by omega
          have hgap2 : (li.getD (s + 2) 0 - li.getD (s + 1) 0) % h = 0 :=
            chain'_getD hgap (by omega)
          have hlt2 : li.getD (s + 1) 0 < li.getD (s + 2) 0 := chain'_getD hch (by omega)
          have hp2 := lower_layer_peers_lt hpos hgap2 hlt2 hp
          exact Nat.lt_of_lt_of_le hp2 (hlast_ge (s + 2) hlen3)
  · rw [localize_eq_default_of_no_segment
      (fun s hsl hand => hseg ⟨s, hsl, hand.1, hand.2⟩)]
    exact ⟨Nat.zero_le _, fun p hp => absurd hp (List.not_mem_nil p)⟩

/-! ### The concrete 25000-node partition -/

theorem describe_25000 : describe_data_plane 25000 10 10 false = some (501, li25) := by
  have h1 : describe_data_plane 25000 10 10 false =
      describeLoop 10 false 25000 24990 2 5 [0, 10] := by
    unfold describe_data_plane
    rw [if_neg (show ¬(25000 = 0) by norm_num), if_neg (show ¬(25000 ≤ 10) by norm_num)]
  rw [h1]
  have h2 : (24990 : Nat) = 10 * 5 * 499 + 40 := by norm_num
  rw [h2]
  rw [describeLoop_closed (by norm_num) 499 25000 40 2 [0, 10] (by norm_num) (by norm_num)
    (by norm_num)]
  rfl

theorem li25_length : li25.length = 502 := by
  unfold li25
  simp

theorem li25_last : li25.getD (li25.length - 1) 0 = 25010 := by
  rw [li25_length]
  show li25.getD 501 0 = 25010
  rw [List.getD_eq_getElem li25 0 (by rw [li25_length]; omega)]
  unfold li25
  rw [List.getElem_append_right (by simp)]
  simp [List.getElem_range']

theorem li25_chain_lt : List.Chain' (· < ·) li25 :=
  describe_data_plane_chain' describe_25000

theorem li25_chain_gap : List.Chain' (fun x y => (y - x) % 10 = 0) li25 := by
  show List.Chain' _ ((0 : Nat) :: 10 :: List.range' 60 500 50)
  have hunf : List.range' 60 500 50 = 60 :: List.range' 110 499 50 := by
    rw [show (500 : Nat) = 499 + 1 from rfl, List.range'_succ]
  rw [hunf]
  refine List.chain'_cons.mpr ⟨by norm_num, ?_⟩
  refine List.chain'_cons.mpr ⟨by norm_num, ?_⟩
  rw [show (60 : Nat) :: List.range' 110 499 50 = List.range' 60 500 50 from hunf.symm]
  exact chain'_range'_of (fun x => by omega) 500 60

/-! ### Claim theorems: topology -/

/-- C1.  Coverage of the broadcast tree: `describe_data_plane 25000 10 10
false` returns the partition `li25`; the union over all select indices
`i` in `[0, li25.last)` of `localize li25 10 i`'s neighborhood range and
child-layer peers contains every integer in `[0, li25.last)` (hence also
`li25.last - 1`) and does not contain `li25.last`. -/
theorem coverage_25000 :
    describe_data_plane 25000 10 10 false = some (501, li25) ∧
    (∀ j, j < li25.getLast?.getD 0 → coverUnion li25 10 j) ∧
    coverUnion li25 10 (li25.getLast?.getD 0 - 1) ∧
    ¬coverUnion li25 10 (li25.getLast?.getD 0) := by
  have hch := li25_chain_lt
  have hgap := li25_chain_gap
  have hlen : 2 ≤ li25.length := by rw [li25_length]; omega
  have hlast : li25.getLast?.getD 0 = 25010 := by
    rw [getLast?_getD_eq_getD, li25_last]
  have main : ∀ j, j < li25.getLast?.getD 0 → coverUnion li25 10 j := by
    intro j hj
    rw [getLast?_getD_eq_getD] at hj
    refine ⟨j, by rw [getLast?_getD_eq_getD]; exact hj, Or.inl ?_⟩
    exact localize_self_cover hch hlen rfl rfl (by norm_num) hj
  refine ⟨describe_25000, main, main _ (by rw [hlast]; norm_num), ?_⟩
  rintro ⟨i, hi, hcov⟩
  have hup := localize_upper hch hgap rfl (by norm_num) hlen i
  rcases hcov with hr | hm
  · have h2 := hup.1
    have h3 : li25.getLast?.getD 0 < (localize li25 10 i).neighbor_bounds.2 := hr.2
    rw [getLast?_getD_eq_getD] at h3
    omega
  · have h2 := hup.2 _ hm
    rw [getLast?_getD_eq_getD] at h2
    omega

/-- C1 witness: node index 0 is covered by the union. -/
theorem coverage_25000_witness : coverUnion li25 10 0 :=
  coverage_25000.2.1 0 (by rw [getLast?_getD_eq_getD, li25_last]; norm_num)

/-- C3 counterexample: with `nodes = 2 > 1 = fanout` (and `hood_size =
1`, `grow = false`) the `describe_data_plane` loop never terminates
(`layer_capacity = hood_size * (fanout / 2) = 0`), so no pair is
returned at all — the embedding yields `none` (see
`describeLoop_none_of_cap_zero` for fuel-independence). -/
theorem describe_data_plane_no_result_fanout_one :
    1 < 2 ∧ describe_data_plane 2 1 1 false = none :=
  ⟨by norm_num, by decide⟩

/-- C3 amended: for `fanout ≥ 2`, `hood_size ≥ 1` and `nodes > fanout`,
`describe_data_plane` returns `(num_layers, layer_indices)` with
`num_layers = layer_indices.length - 1` and `layer_indices.last ≥
nodes`. -/
theorem describe_data_plane_post {n f h : Nat} {g : Bool}
    (hnf : f < n) (hf : 2 ≤ f) (hh : 1 ≤ h) :
    ∃ nl li, describe_data_plane n f h g = some (nl, li) ∧
      nl = li.length - 1 ∧ n ≤ li.getLast?.getD 0 := by
  unfold describe_data_plane
  rw [if_neg (by omega), if_neg (by omega)]
  have hcap : 0 < h * (f / 2) := Nat.mul_pos (by omega) (by omega)
  obtain ⟨nl2, li2, heq, hp1, hp2⟩ :=
    describeLoop_post n (n - f) 2 (f / 2) [0, f] hcap (by omega) (by omega) rfl
  refine ⟨nl2, li2, heq, hp1, ?_⟩
  have hl : ([0, f] : List Nat).getLast?.getD 0 = f := rfl
  omega

/-- C3 witness: the amended postcondition at `nodes = 3, fanout = 2,
hood_size = 1, grow = false`. -/
theorem describe_data_plane_post_witness :
    ∃ nl li, describe_data_plane 3 2 1 false = some (nl, li) ∧
      nl = li.length - 1 ∧ 3 ≤ li.getLast?.getD 0 :=
  describe_data_plane_post (by norm_num) (by norm_num) (by norm_num)

/-- C4.  The literal values of `describe_data_plane` from the spec
scenarios S1 and S2. -/
theorem describe_data_plane_literals :
    describe_data_plane 0 200 200 false = some (0, []) ∧
    describe_data_plane 1 200 200 false = some (1, [0]) ∧
    (describe_data_plane 10 2 2 false).map Prod.fst = some 5 ∧
    (describe_data_plane 3 2 2 false).map Prod.fst = some 2 ∧
    (describe_data_plane 10 4 2 true).map Prod.fst = some 3 ∧
    (describe_data_plane 100 10 10 false).map Prod.fst = some 3 ∧
    (describe_data_plane 10000 10 10 false).map Prod.fst = some 201 := by
  refine ⟨by decide, by decide, by decide, by decide, by decide, by decide, ?_⟩
  have h1 : describe_data_plane 10000 10 10 false =
      describeLoop 10 false 10000 9990 2 5 [0, 10] := by
    unfold describe_data_plane
    rw [if_neg (show ¬(10000 = 0) by norm_num), if_neg (show ¬(10000 ≤ 10) by norm_num)]
  rw [h1]
  have h2 : (9990 : Nat) = 10 * 5 * 199 + 40 := by norm_num
  rw [h2]
  rw [describeLoop_closed (by norm_num) 199 10000 40 2 [0, 10] (by norm_num) (by norm_num)
    (by norm_num)]
  rfl

theorem lower_layer_peers_succ_clash {a b hood x p : Nat} (hhood : 2 ≤ hood)
    (h1 : p ∈ lower_layer_peers x a b hood)
    (h2 : p ∈ lower_layer_peers (x + 1) a b hood) : False := by
  obtain ⟨k, hk, hp1⟩ := mem_lower_layer_peers.mp h1
  obtain ⟨k2, hk2, hp2⟩ := mem_lower_layer_peers.mp h2
  have hpos : 0 < hood := by omega
  have hxm : x % hood < hood := Nat.mod_lt x hpos
  have hx1m : (x + 1) % hood < hood := Nat.mod_lt (x + 1) hpos
  have he : hood * k + x % hood = hood * k2 + (x + 1) % hood := by omega
  have hmod : (hood * k + x % hood) % hood = (hood * k2 + (x + 1) % hood) % hood := by
    rw [he]
  rw [Nat.mul_add_mod, Nat.mul_add_mod, Nat.mod_eq_of_lt hxm,
    Nat.mod_eq_of_lt hx1m] at hmod
  have hsucc : (x + 1) % hood = (x % hood + 1) % hood := by
    conv_lhs => rw [Nat.add_mod]
    rw [Nat.mod_eq_of_lt (show (1 : Nat) < hood by omega)]
  by_cases hedge : x % hood + 1 < hood
  · rw [hsucc, Nat.mod_eq_of_lt hedge] at hmod
    omega
  · have hxe : x % hood + 1 = hood := by omega
    rw [hsucc, hxe, Nat.mod_self] at hmod
    omega

/-- C2 counterexample: the partition `[0, 2, 3, 4]` is produced by
`describe_data_plane 4 2 1 false`; with `hood_size = 1` the adjacent
indices `0` and `0 + 1` lie in the same (non-terminal, child-bearing)
layer `[0, 2)`, yet both child_layer_peers sets contain node `2` — they
are not disjoint. -/
theorem child_layer_peers_clash_hood_one :
    describe_data_plane 4 2 1 false = some (3, [0, 2, 3, 4]) ∧
    ([0, 2, 3, 4] : List Nat).getD 0 0 ≤ 0 ∧
    (0 + 1 : Nat) < ([0, 2, 3, 4] : List Nat).getD 1 0 ∧
    2 ∈ (localize [0, 2, 3, 4] 1 0).child_layer_peers ∧
    2 ∈ (localize [0, 2, 3, 4] 1 1).child_layer_peers := by
  decide

/-- C2 amended: for every partition produced by `describe_data_plane`
and every `hood_size ≥ 2`, adjacent indices `x` and `x + 1` lying in the
same layer produce disjoint `child_layer_peers`. -/
theorem child_layer_peers_disjoint (n f h : Nat) (g : Bool) (nl : Nat) (li : List Nat)
    (hood s x : Nat) (hd : describe_data_plane n f h g = some (nl, li))
    (hhood : 2 ≤ hood) (hs : s + 1 < li.length)
    (hx1 : li.getD s 0 ≤ x) (hx2 : x + 1 < li.getD (s + 1) 0) :
    ∀ p, p ∈ (localize li hood x).child_layer_peers →
      p ∉ (localize li hood (x + 1)).child_layer_peers := by
  have hch := describe_data_plane_chain' hd
  intro p hpx hpx1
  by_cases hs0 : s = 0
  · subst hs0
    have hx2' : x + 1 < li.getD 1 0 := hx2
    rw [localize_eq_of_item hch hs hx1
      (localize_item_eq_zero (by omega) hx1 (by omega))] at hpx
    rw [localize_eq_of_item hch hs (by omega)
      (localize_item_eq_zero (by omega) (by omega) hx2')] at hpx1
    by_cases he : 1 = li.length - 1
    · simp only [if_pos he] at hpx
      exact absurd hpx (List.not_mem_nil p)
    · simp only [if_neg he] at hpx hpx1
      exact lower_layer_peers_succ_clash hhood hpx hpx1
  · have hs0p : 0 < s := Nat.pos_of_ne_zero hs0
    rw [localize_eq_of_item hch hs hx1
      (localize_item_eq_interior hs0p hs hx1 (by omega))] at hpx
    rw [localize_eq_of_item hch hs (by omega)
      (localize_item_eq_interior hs0p hs (by omega) hx2)] at hpx1
    by_cases he : s + 1 = li.length - 1
    · simp only [if_pos he] at hpx
      exact absurd hpx (List.not_mem_nil p)
    · simp only [if_neg he] at hpx hpx1
      exact lower_layer_peers_succ_clash hhood hpx hpx1

/-- C2 witness: in the partition of `describe_data_plane 100 10 10
false`, node 60 is a child peer of index 10 but not of index 11. -/
theorem child_layer_peers_disjoint_witness :
    60 ∈ (localize [0, 10, 60, 110] 10 10).child_layer_peers ∧
    60 ∉ (localize [0, 10, 60, 110] 10 11).child_layer_peers := by
  refine ⟨by decide, ?_⟩
  exact child_layer_peers_disjoint 100 10 10 false 3 [0, 10, 60, 110] 10 1 10
    (by decide) (by norm_num) (by norm_num) (by decide) (by decide) 60 (by decide)

/-- C5.  `localize [0, 200, 20200] 200 0` has layer 0 and child bounds
`(200, 20200)`; and for every index in an interior layer `i` of a
sorted partition, `localize` sets `hood_ix = (index - layer_indices[i])
/ hood_size`, `neighbor_bounds = (layer_indices[i] + hood_ix * hood,
layer_indices[i] + (hood_ix + 1) * hood)`, and `child_layer_bounds =
(layer_indices[i+1], layer_indices[i+2])` when a next layer exists. -/
theorem localize_formulas :
    ((localize [0, 200, 20200] 200 0).layer_ix = 0 ∧
      (localize [0, 200, 20200] 200 0).child_layer_bounds = some (200, 20200)) ∧
    (∀ li hood i idx, List.Chain' (· < ·) li → 0 < hood → 0 < i → i + 1 < li.length →
      li.getD i 0 ≤ idx → idx < li.getD (i + 1) 0 →
      (localize li hood idx).layer_ix = i ∧
      (localize li hood idx).neighbor_bounds =
        (li.getD i 0 + (idx - li.getD i 0) / hood * hood,
         li.getD i 0 + ((idx - li.getD i 0) / hood + 1) * hood) ∧
      (i + 2 < li.length →
        (localize li hood idx).child_layer_bounds =
          some (li.getD (i + 1) 0, li.getD (i + 2) 0))) := by
  constructor
  · exact ⟨by decide, by decide⟩
  · intro li hood i idx hch hhood hi0 hi1 hle hlt
    rw [localize_eq_of_item hch hi1 hle (localize_item_eq_interior hi0 hi1 hle hlt)]
    refine ⟨rfl, ?_, ?_⟩
    · show ((idx - li.getD i 0) / hood * hood + li.getD i 0,
          ((idx - li.getD i 0) / hood + 1) * hood + li.getD i 0) =
        (li.getD i 0 + (idx - li.getD i 0) / hood * hood,
          li.getD i 0 + ((idx - li.getD i 0) / hood + 1) * hood)
      rw [Nat.add_comm (li.getD i 0) ((idx - li.getD i 0) / hood * hood),
        Nat.add_comm (li.getD i 0) (((idx - li.getD i 0) / hood + 1) * hood)]
    · intro hi2
      show (if i + 1 = li.length - 1 then none
          else some (li.getD (i + 1) 0, li.getD (i + 1 + 1) 0)) =
        some (li.getD (i + 1) 0, li.getD (i + 2) 0)
      rw [if_neg (by omega)]

/-- C5 witness: the interior formulas at `layer_indices = [0, 10, 60,
110]`, `hood_size = 10`, layer 1, index 23. -/
theorem localize_formulas_witness :
    (localize [0, 10, 60, 110] 10 23).layer_ix = 1 ∧
    (localize [0, 10, 60, 110] 10 23).neighbor_bounds = (20, 30) ∧
    (localize [0, 10, 60, 110] 10 23).child_layer_bounds = some (60, 110) := by
  obtain ⟨h1, h2, h3⟩ := localize_formulas.2 [0, 10, 60, 110] 10 1 23
    (by norm_num [List.chain'_cons]) (by norm_num) (by norm_num) (by norm_num)
    (by decide) (by decide)
  exact ⟨h1, by rw [h2]; decide, h3 (by norm_num)⟩

/-- C10.  Totality of `localize` at the boundary: for the empty
partition, for any `select_index` lying in no segment
`[layer_indices[i], layer_indices[i+1])`, and in particular for any
`select_index ≥ layer_indices.last` of a sorted partition, `localize`
returns the default `Locality` (all fields zero / `none` / `[]`)
rather than failing. -/
theorem localize_total_default :
    (∀ hood idx, localize [] hood idx = default) ∧
    (∀ li hood idx,
      (∀ i, i + 1 < li.length → ¬(li.getD i 0 ≤ idx ∧ idx < li.getD (i + 1) 0)) →
      localize li hood idx = default) ∧
    (∀ li hood idx, List.Chain' (· ≤ ·) li → li.getLast?.getD 0 ≤ idx →
      localize li hood idx = default) ∧
    ((default : Locality).neighbor_bounds = (0, 0) ∧
      (default : Locality).layer_ix = 0 ∧
      (default : Locality).layer_bounds = (0, 0) ∧
      (default : Locality).child_layer_bounds = none ∧
      (default : Locality).child_layer_peers = []) := by
  refine ⟨?_, ?_, ?_, rfl, rfl, rfl, rfl, rfl⟩
  · intro hood idx
    exact localize_eq_default_of_no_segment (fun i hi => by simp at hi)
  · intro li hood idx hno
    exact localize_eq_default_of_no_segment hno
  · intro li hood idx hch hidx
    apply localize_eq_default_of_no_segment
    intro i hi hand
    have hle : li.getD (i + 1) 0 ≤ li.getD (li.length - 1) 0 :=
      getD_le_of_chain'_le hch (by omega) (by omega)
    rw [getLast?_getD_eq_getD] at hidx
    omega

/-- C10 witness: the default result on the empty partition, on `[0]`
with an out-of-range index, and on `[0, 10]` at `select_index =
layer_indices.last`. -/
theorem localize_total_default_witness :
    localize [] 1 0 = default ∧ localize [0] 2 7 = default ∧
    localize [0, 10] 3 10 = default :=
  ⟨localize_total_default.1 1 0,
   localize_total_default.2.1 [0] 2 7 (fun i hi _ => by simp at hi),
   localize_total_default.2.2.1 [0, 10] 3 10 (by norm_num [List.chain'_cons])
     (by decide)⟩

/-! ### Claim theorems: PruneData, peers, broadcast, repair -/

/-- C6.  The signed and verified byte sequence of a `PruneData`
(`signable_data`) is exactly the serialization of the four fields
`pubkey, prunes, destination, wallclock` in that order — the signature
field (present in the full wire serialization `serPruneData`) is
excluded; consequently two values differing only in their signature
field have equal `signable_data`. -/
theorem prune_data_signable_data :
    (∀ d : PruneData, d.signable_data =
      serPubkey d.pubkey ++ serVecPubkey d.prunes ++ serPubkey d.destination ++
        serU64 d.wallclock) ∧
    (∀ d : PruneData, serPruneData d =
      serPubkey d.pubkey ++ serVecPubkey d.prunes ++ serSignature d.signature ++
        serPubkey d.destination ++ serU64 d.wallclock) ∧
    (∀ d1 d2 : PruneData, d1.pubkey = d2.pubkey → d1.prunes = d2.prunes →
      d1.destination = d2.destination → d1.wallclock = d2.wallclock →
      d1.signable_data = d2.signable_data) := by
  refine ⟨fun d => rfl, fun d => rfl, fun d1 d2 h1 h2 h3 h4 => ?_⟩
  unfold PruneData.signable_data
  rw [h1, h2, h3, h4]

/-- C6 witness: two concrete `PruneData` values differing only in the
signature have the same signable data. -/
theorem prune_data_signable_data_witness :
    PruneData.signable_data
        { pubkey := ⟨[1]⟩, prunes := [⟨[2]⟩], signature := ⟨[7]⟩,
          destination := ⟨[3]⟩, wallclock := 5 } =
      PruneData.signable_data
        { pubkey := ⟨[1]⟩, prunes := [⟨[2]⟩], signature := ⟨[9]⟩,
          destination := ⟨[3]⟩, wallclock := 5 } :=
  prune_data_signable_data.2.2 _ _ rfl rfl rfl rfl

/-- C8.  Every role-peer view returns only contacts whose id differs
from this node's own id and whose corresponding endpoint (tpu, tvu,
rpc, tvu, tvu-and-gossip, gossip respectively) is a valid (not
unspecified) address. -/
theorem peer_views_exclude_self_and_invalid :
    ∀ (ci : ClusterInfoState) (x : ContactInfo),
      (x ∈ tpu_peers ci → x.id ≠ ci.me ∧ is_valid_address x.tpu = true) ∧
      (x ∈ tvu_peers ci → x.id ≠ ci.me ∧ is_valid_address x.tvu = true) ∧
      (x ∈ rpc_peers ci → x.id ≠ ci.me ∧ is_valid_address x.rpc = true) ∧
      (x ∈ retransmit_peers ci → x.id ≠ ci.me ∧ is_valid_address x.tvu = true) ∧
      (x ∈ repair_peers ci → x.id ≠ ci.me ∧ is_valid_address x.tvu = true ∧
        is_valid_address x.gossip = true) ∧
      (x ∈ gossip_peers ci → x.id ≠ ci.me ∧ is_valid_address x.gossip = true) := by
  intro ci x
  refine ⟨?_, ?_, ?_, ?_, ?_, ?_⟩
  · intro hx
    simp only [tpu_peers, List.mem_filter, decide_eq_true_eq] at hx
    exact ⟨hx.1.2, hx.2⟩
  · intro hx
    simp only [tvu_peers, List.mem_filter, decide_eq_true_eq] at hx
    exact ⟨hx.2, hx.1.2⟩
  · intro hx
    simp only [rpc_peers, List.mem_filter, decide_eq_true_eq] at hx
    exact ⟨hx.1.2, hx.2⟩
  · intro hx
    simp only [retransmit_peers, List.mem_filter, decide_eq_true_eq] at hx
    exact ⟨hx.1.2, hx.2⟩
  · intro hx
    simp only [repair_peers, tvu_peers, List.mem_filter, decide_eq_true_eq] at hx
    exact ⟨hx.1.2, hx.1.1.1.2, hx.2⟩
  · intro hx
    simp only [gossip_peers, List.mem_filter, decide_eq_true_eq] at hx
    exact ⟨hx.1.2, hx.2⟩

/-- C8 witness: a concrete peer listed in the tpu view of a concrete
state indeed has a different id and a valid tpu endpoint. -/
theorem peer_views_exclude_self_and_invalid_witness :
    samplePeer.id ≠ ciOnePeer.me ∧ is_valid_address samplePeer.tpu = true :=
  (peer_views_exclude_self_and_invalid ciOnePeer samplePeer).1 (by decide)

/-- C9.  `window_index_request` on a state whose CRDS holds only this
node's own contact info returns `Err(NoPeers)` for every index; when at
least one repair-capable peer exists it returns `Ok` with the gossip
address of one of those peers. -/
theorem window_index_request_spec :
    (∀ (ci : ClusterInfoState) (ix n : Nat) (selfci : ContactInfo),
      ci.table = [CrdsValue.contactInfoV selfci] → selfci.id = ci.me →
      window_index_request ci ix n = Except.error ClusterInfoError.NoPeers) ∧
    (∀ (ci : ClusterInfoState) (ix n : Nat), repair_peers ci ≠ [] →
      ∃ p, p ∈ repair_peers ci ∧
        window_index_request ci ix n =
          Except.ok (p.gossip, window_index_request_bytes ci ix)) := by
  constructor
  · intro ci ix n selfci htab hid
    have htvu : tvu_peers ci = [] := by
      unfold tvu_peers
      apply List.filter_eq_nil.mpr
      intro a ha
      have ha2 : a ∈ ci.table.filterMap CrdsValue.contact_info :=
        (List.mem_filter.mp ha).1
      rw [htab] at ha2
      simp only [List.filterMap_cons, CrdsValue.contact_info, List.filterMap_nil,
        List.mem_singleton] at ha2
      subst ha2
      simp [hid]
    unfold window_index_request
    have hrep : repair_peers ci = [] := by
      unfold repair_peers
      rw [htvu]
      rfl
    rw [hrep]
    rfl
  · intro ci ix n hne
    have hlen : 0 < (repair_peers ci).length := List.length_pos.mpr hne
    unfold window_index_request
    rw [if_neg (by simp [List.isEmpty_iff, hne])]
    refine ⟨(repair_peers ci).getD (n % (repair_peers ci).length) default, ?_, rfl⟩
    rw [List.getD_eq_getElem _ _ (Nat.mod_lt n hlen)]
    exact List.getElem_mem _

/-- C9 witness: the only-self state yields `NoPeers`; the one-peer
state yields that peer's gossip address. -/
theorem window_index_request_spec_witness :
    window_index_request ciSelfOnly 0 0 = Except.error ClusterInfoError.NoPeers ∧
    ∃ p, p ∈ repair_peers ciOnePeer ∧
      window_index_request ciOnePeer 0 0 =
        Except.ok (samplePeer.gossip, window_index_request_bytes ciOnePeer 0) := by
  constructor
  · exact window_index_request_spec.1 ciSelfOnly 0 0 sampleSelf rfl rfl
  · obtain ⟨p, hp, heq⟩ := window_index_request_spec.2 ciOnePeer 0 0 (by decide)
    have hrep : repair_peers ciOnePeer = [samplePeer] := by decide
    have hpv : p = samplePeer := by
      rw [hrep] at hp
      simpa using hp
    exact ⟨p, by rw [hrep, hpv]; simp, by rw [heq, hpv]⟩

/-- C7.  `create_broadcast_orders` with offset `x` assigns blob `i` the
single recipient `table[(x + i) % table.length]`; with
`contains_last_tick` it appends exactly one extra order pairing the
final blob with the whole table, and without it the number of orders
equals the number of blobs. -/
theorem create_broadcast_orders_spec {α β : Type} [Inhabited α] [Inhabited β] :
    ∀ (tick : Bool) (blobs : List β) (table : List α) (x : Nat),
      blobs ≠ [] → table ≠ [] →
      (create_broadcast_orders tick blobs table x).length =
        (if tick then blobs.length + 1 else blobs.length) ∧
      (∀ i, i < blobs.length →
        (create_broadcast_orders tick blobs table x).getD i default =
          (blobs.getD i default, [table.getD ((x + i) % table.length) default])) ∧
      (tick = true →
        (create_broadcast_orders tick blobs table x).getD blobs.length default =
          (blobs.getLast?.getD default, table)) := by
  intro tick blobs table x hblobs htable
  have hempty : blobs.isEmpty = false := by
    simp [List.isEmpty_iff, hblobs]
  have horders : ∀ i, i < blobs.length →
      (blobs.enum.map (fun p =>
        ((p.2 : β), [table.getD ((x + p.1) % table.length) default]))).getD i default =
        (blobs.getD i default, [table.getD ((x + i) % table.length) default]) := by
    intro i hi
    have hilen : i < (blobs.enum.map (fun p =>
        ((p.2 : β), [table.getD ((x + p.1) % table.length) default]))).length := by
      simp [List.enum_length, hi]
    rw [List.getD_eq_getElem _ _ hilen, List.getElem_map,
      List.getElem_enum, List.getD_eq_getElem blobs _ hi]
  have hlenmap : (blobs.enum.map (fun p =>
      ((p.2 : β), [table.getD ((x + p.1) % table.length) default]))).length =
      blobs.length := by
    simp [List.enum_length]
  cases tick with
  | false =>
    refine ⟨?_, ?_, by intro h; exact absurd h (by simp)⟩
    · simp only [create_broadcast_orders, hempty, Bool.false_eq_true, if_false]
      exact hlenmap
    · intro i hi
      simp only [create_broadcast_orders, hempty, Bool.false_eq_true, if_false]
      exact horders i hi
  | true =>
    refine ⟨?_, ?_, ?_⟩
    · simp only [create_broadcast_orders, hempty, Bool.false_eq_true, if_false,
        if_true, List.length_append, hlenmap]
      simp
    · intro i hi
      simp only [create_broadcast_orders, hempty, Bool.false_eq_true, if_false, if_true]
      rw [List.getD_eq_getElem _ _ (by simp [List.enum_length]; omega),
        List.getElem_append_left (by simp [List.enum_length]; omega)]
      rw [← List.getD_eq_getElem _ default (by simp [List.enum_length]; omega)]
      exact horders i hi
    · intro _
      simp only [create_broadcast_orders, hempty, Bool.false_eq_true, if_false, if_true]
      rw [List.getD_eq_getElem _ _ (by simp [List.enum_length])]
      rw [List.getElem_append_right (by simp [List.enum_length])]
      simp [hlenmap]

/-- C7 witness: two blobs, a three-node table, offset 1, with the
last-tick broadcast appended. -/
theorem create_broadcast_orders_spec_witness :
    (create_broadcast_orders true [100, 200] [7, 8, 9] 1).length = 3 ∧
    (create_broadcast_orders true [100, 200] [7, 8, 9] 1).getD 0 default = (100, [8]) ∧
    (create_broadcast_orders true [100, 200] [7, 8, 9] 1).getD 2 default =
      (200, [7, 8, 9]) := by
  obtain ⟨h1, h2, h3⟩ := create_broadcast_orders_spec true [100, 200] [7, 8, 9] 1
    (by simp) (by simp)
  refine ⟨by rw [h1]; rfl, ?_, ?_⟩
  · rw [h2 0 (by norm_num)]
    rfl
  · simpa using h3 rfl

end ClusterInfo
